import Mathlib

/-!
Shallow embedding of `src/memm.py`, a Maximum-Entropy Markov Model
part-of-speech tagger, together with proofs about the claims on its
specification.  Python lists become Lean lists, Python dicts become
association lists in insertion order, numpy log-probabilities become
rationals, and raised exceptions become `Except.error` values.  The
mutable `Classifier` object is threaded explicitly: `none` stands for the
object before `train` has created the fitted attributes, `some m` for the
trained object.
-/

set_option maxHeartbeats 1000000

namespace Memm

/-- Characters removed by Python `str.strip` (the ASCII whitespace set). -/
def isPySpace (c : Char) : Bool :=
  c == Char.ofNat 32 || c == Char.ofNat 9 || c == Char.ofNat 10 ||
  c == Char.ofNat 11 || c == Char.ofNat 12 || c == Char.ofNat 13

/-- Python `str.strip`: remove whitespace from both ends of the string. -/
def pyStrip (s : String) : String :=
  String.mk (((s.toList.dropWhile isPySpace).reverse.dropWhile isPySpace).reverse)

/-- Python `str.split` with the explicit tab separator: cut the string at every
tab character; the empty string splits to a single empty field. -/
def pySplitTab (s : String) : List String :=
  (s.toList.foldr
    (fun c acc =>
      if c == Char.ofNat 9 then [] :: acc
      else
        match acc with
        | [] => [[c]]
        | a :: rest => (c :: a) :: rest)
    [[]]).map (fun cs => String.mk cs)

/-- The line loop of `read_ptbtagged`, transcribed from the source: `buf` holds
the `tok`/`pos` accumulators, `acc` the sentences yielded so far.  A stripped
blank line yields the buffers and resets them; any other line is split on the
tab and its first two fields are appended (a line without a tab raises
`IndexError` at `line[1]`).  When the lines run out the buffers are yielded
unconditionally. -/
def readLoop : List String × List String → List (List String × List String) →
    List String → Except String (List (List String × List String))
  | buf, acc, [] => Except.ok (acc ++ [buf])
  | buf, acc, l :: ls =>
    if pyStrip l = "" then readLoop ([], []) (acc ++ [buf]) ls
    else
      match (pySplitTab (pyStrip l)).get? 1 with
      | none => Except.error "IndexError: list index out of range"
      | some p =>
        readLoop (buf.1 ++ [(pySplitTab (pyStrip l)).headD ""], buf.2 ++ [p]) acc ls

/-- `read_ptbtagged` on the list of lines of the input file, returning the list
of yielded sentences. -/
def read_ptbtagged (lines : List String) :
    Except String (List (List String × List String)) :=
  readLoop ([], []) [] lines

/-- Python dict write: updating an existing key keeps its position in insertion
order, a new key is appended at the end. -/
def dictInsert (d : List (String × Nat)) (k : String) (v : Nat) :
    List (String × Nat) :=
  if d.any (fun kv => kv.1 = k) then
    d.map (fun kv => if kv.1 = k then (k, v) else kv)
  else d ++ [(k, v)]

/-- The dict comprehension in `train`: iterate over the features of one word
pair and map each feature name to the number of times it occurs in the pair. -/
def featureCount (word : List String) : List (String × Nat) :=
  word.foldl (fun d f => dictInsert d f (word.count f)) []

/-- Feature rows that the `train` loop builds for one tagged sentence: prefix
the tokens with `token=` and the tags, after the sentinel was inserted in
front, with `pos-1=`, zip the two lists, and build one feature dict per
pair. -/
def sentRows (s : List String × List String) : List (List (String × Nat)) :=
  ((s.1.map (fun x => "token=" ++ x)).zip
      (("<s>" :: s.2).map (fun x => "pos-1=" ++ x))).map
    (fun w => featureCount [w.1, w.2])

/-- Accumulators of the `train` loop: the list of feature dicts, the label
list, and the tagged sentences as the caller sees them after the loop body
mutated the tag lists in place. -/
structure TrainLoopState where
  whole_doc : List (List (String × Nat))
  label : List String
  sentsAfter : List (List String × List String)
deriving Repr, DecidableEq

/-- One iteration of the `train` loop, transcribed from the source: extend the
label list with the gold tags, insert the sentinel at index 0 of the
caller-owned tag list, build the two prefixed feature name lists, zip them and
append one feature dict per pair. -/
def trainStep (st : TrainLoopState) (s : List String × List String) :
    TrainLoopState :=
  let tok := s.1
  let pos := s.2
  let labelAcc := st.label ++ pos
  let posM := "<s>" :: pos
  let tokF := tok.map (fun x => "token=" ++ x)
  let posF := posM.map (fun x => "pos-1=" ++ x)
  let word_list := tokF.zip posF
  { whole_doc := st.whole_doc ++ word_list.map (fun w => featureCount [w.1, w.2])
    label := labelAcc
    sentsAfter := st.sentsAfter ++ [(tok, posM)] }

/-- The full `train` loop over the tagged sentences. -/
def trainLoop (sents : List (List String × List String)) : TrainLoopState :=
  sents.foldl trainStep ⟨[], [], []⟩

/-- `Classifier.train`: run the loop, then fit the vectorizer, the label
encoder and the logistic regression.  sklearn raises when the training data is
empty and when the number of feature rows differs from the number of labels;
otherwise the feature rows, the label list and the mutated sentences are
returned.  The source performs no per-sentence validation of its own. -/
def train (sents : List (List String × List String)) :
    Except String
      (List (List (String × Nat)) × List String × List (List String × List String)) :=
  let st := trainLoop sents
  if st.whole_doc.isEmpty then Except.error "ValueError: empty training data"
  else if st.whole_doc.length ≠ st.label.length then
    Except.error "ValueError: found input variables with inconsistent numbers of samples"
  else Except.ok (st.whole_doc, st.label, st.sentsAfter)

/-- The trained state of a `Classifier`: the fitted `DictVectorizer` feature
names (one per column, in column order), the fitted `LabelEncoder` classes
(one tag per integer label), and the fitted `LogisticRegression` viewed
abstractly as a map from a vectorized feature row to the per-class
log-probability scores. -/
structure TrainedModel where
  featNames : List String
  tags : List String
  dist : List Nat → List ℚ

/-- Well-formed trained model: the classifier scores cover every known tag,
one score per class. -/
def TrainedModel.WF (m : TrainedModel) : Prop :=
  ∀ r, (m.dist r).length = m.tags.length

/-- `DictVectorizer.transform` on one feature dict: one column per fitted
feature name; names absent from the dict contribute 0, and names present in
the dict but unseen at fit time are silently dropped. -/
def transform (featNames : List String) (d : List (String × Nat)) : List Nat :=
  featNames.map (fun f => (d.lookup f).getD 0)

/-- `np.argmax`: index of the first maximal element (0 on the empty list). -/
def argmaxIdx : List ℚ → Nat
  | [] => 0
  | [_] => 0
  | x :: y :: rest =>
    let r := argmaxIdx (y :: rest)
    if x < (y :: rest).getD r 0 then r + 1 else 0

/-- State of the `predict_greedy` loop: the previous-tag variable and the two
output accumulators. -/
structure GreedyState where
  label : String
  feature_list : List (List Nat)
  label_list : List String
deriving Repr, DecidableEq

/-- One iteration of the `predict_greedy` loop, transcribed from the source:
build the two-feature dict from the token and the previous tag, vectorize it,
take the classifier argmax, decode the class integer back to a tag string,
append both outputs and overwrite the previous-tag variable. -/
def greedyStep (m : TrainedModel) (st : GreedyState) (word : String) :
    GreedyState :=
  let token := "token=" ++ word
  let pos := "pos-1=" ++ st.label
  let word_list : List (String × Nat) := [(token, 1), (pos, 1)]
  let feature := transform m.featNames word_list
  let label_num := argmaxIdx (m.dist feature)
  let label := m.tags.getD label_num ""
  { label := label
    feature_list := st.feature_list ++ [feature]
    label_list := st.label_list ++ [label] }

/-- The greedy loop step with the trained model threaded through as explicit
state: the loop body reads the fitted components and returns them unchanged. -/
def greedyStepSt (p : TrainedModel × GreedyState) (word : String) :
    TrainedModel × GreedyState :=
  (p.1, greedyStep p.1 p.2 word)

/-- Classifier state: `none` before `train` has been called (the fitted
attributes do not exist yet), `some m` afterwards. -/
abbrev Classifier := Option TrainedModel

/-- `Classifier.predict_greedy` with the classifier state threaded through.
On an empty token list the loop body never runs and `scipy.sparse.vstack`
raises on the empty feature list; on an untrained classifier the first loop
iteration raises when it touches the missing fitted vectorizer. -/
def predict_greedy_st (c : Classifier) (tokens : List String) :
    Classifier × Except String (List (List Nat) × List String) :=
  match tokens with
  | [] => (c, Except.error "ValueError: vstack on an empty block list")
  | t :: ts =>
    match c with
    | none => (none, Except.error "AttributeError: untrained model")
    | some m =>
      let r := (t :: ts).foldl greedyStepSt (m, ⟨"<s>", [], []⟩)
      (some r.1, Except.ok (r.2.feature_list, r.2.label_list))

/-- `Classifier.predict_greedy`: the result component of the threaded
version. -/
def predict_greedy (c : Classifier) (tokens : List String) :
    Except String (List (List Nat) × List String) :=
  (predict_greedy_st c tokens).2

/-- `Classifier.predict` delegates to `predict_greedy` and keeps the tags. -/
def predict (c : Classifier) (tokens : List String) :
    Except String (List String) :=
  (predict_greedy c tokens).map (fun r => r.2)

/-- `Classifier.feature_index`: lookup in the fitted `DictVectorizer`
vocabulary; before `train` the attribute does not exist. -/
def feature_index (c : Classifier) (f : String) : Except String Nat :=
  match c with
  | none => Except.error "untrained model"
  | some m =>
    match m.featNames.indexOf? f with
    | some i => Except.ok i
    | none => Except.error "KeyError"

/-- `Classifier.label_index`: `LabelEncoder.transform` on a single tag; before
`train` the attribute does not exist. -/
def label_index (c : Classifier) (l : String) : Except String Nat :=
  match c with
  | none => Except.error "untrained model"
  | some m =>
    match m.tags.indexOf? l with
    | some i => Except.ok i
    | none => Except.error "ValueError: unseen label"

/-- Modelled from the spec: the classifier distribution queried by the Viterbi
decoder for one token and one candidate previous tag, through the same
feature-construction contract as the greedy decoder (`src/memm.py` declares
`Classifier.predict_viterbi` with a docstring only; its body is missing, so
this and the following definitions follow spec section 4.4). -/
def distFor (m : TrainedModel) (word prevTag : String) : List ℚ :=
  m.dist (transform m.featNames [("token=" ++ word, 1), ("pos-1=" ++ prevTag, 1)])

/-- Tag string for a dense tag index. -/
def tagOf (m : TrainedModel) (j : Nat) : String := m.tags.getD j ""

/-- Modelled from the spec: the candidate scores feeding one Viterbi recurrence
cell, one entry per previous tag `j`: the cumulative score of `j` at the
previous position plus the log-probability of the current tag `k` for the
current token given previous tag `j`. -/
def cand (m : TrainedModel) (prevRow : List ℚ) (w : String) (k : Nat) : List ℚ :=
  (List.range m.tags.length).map
    (fun j => prevRow.getD j 0 + (distFor m w (tagOf m j)).getD k 0)

/-- Value of the first maximal element of a list (0 on the empty list). -/
def maxVal (l : List ℚ) : ℚ := l.getD (argmaxIdx l) 0

/-- Modelled from the spec: one Viterbi lattice row, the maximum over previous
tags of the candidate scores for each current tag. -/
def stepRow (m : TrainedModel) (prevRow : List ℚ) (w : String) : List ℚ :=
  (List.range m.tags.length).map (fun k => maxVal (cand m prevRow w k))

/-- Modelled from the spec: one backpointer row, the lowest previous-tag index
achieving each maximum of the Viterbi recurrence. -/
def stepBp (m : TrainedModel) (prevRow : List ℚ) (w : String) : List Nat :=
  (List.range m.tags.length).map (fun k => argmaxIdx (cand m prevRow w k))

/-- Modelled from the spec: the Viterbi recurrence over positions `1 .. n-1`,
producing one lattice row and one backpointer row per remaining token. -/
def viterbiLoop (m : TrainedModel) (prevRow : List ℚ) :
    List String → List (List ℚ × List Nat)
  | [] => []
  | w :: ws =>
    (stepRow m prevRow w, stepBp m prevRow w) ::
      viterbiLoop m (stepRow m prevRow w) ws

/-- Modelled from the spec: the Viterbi lattice, one row per token; the base
row is the distribution for the first token given the start sentinel. -/
def latticeOf (m : TrainedModel) (tokens : List String) : List (List ℚ) :=
  match tokens with
  | [] => []
  | w :: ws =>
    distFor m w "<s>" :: (viterbiLoop m (distFor m w "<s>") ws).map (fun r => r.1)

/-- Modelled from the spec: the backpointer rows for positions `1 .. n-1`. -/
def bpsOf (m : TrainedModel) (tokens : List String) : List (List Nat) :=
  match tokens with
  | [] => []
  | w :: ws => (viterbiLoop m (distFor m w "<s>") ws).map (fun r => r.2)

/-- Final lattice row reached after folding the recurrence over the remaining
tokens, starting from a given base row. -/
def finalRowAux (m : TrainedModel) (prevRow : List ℚ) : List String → List ℚ
  | [] => prevRow
  | w :: ws => finalRowAux m (stepRow m prevRow w) ws

/-- Last row of the Viterbi lattice. -/
def lastRowOf (m : TrainedModel) (tokens : List String) : List ℚ :=
  (latticeOf m tokens).getLastD []

/-- Modelled from the spec: follow backpointers from the chosen final tag; the
input is the backpointer rows from last position to first, the output the tag
indices from last position to first. -/
def backtraceRev : Nat → List (List Nat) → List Nat
  | k, [] => [k]
  | k, b :: rest => k :: backtraceRev (b.getD k 0) rest

/-- Modelled from the spec: the tag-index path selected by the Viterbi
decoder, recovered by following backpointers from the argmax of the final
lattice row and reversing. -/
def viterbiIdxPath (m : TrainedModel) (tokens : List String) : List Nat :=
  match tokens with
  | [] => []
  | _ :: _ =>
    (backtraceRev (argmaxIdx (lastRowOf m tokens)) (bpsOf m tokens).reverse).reverse

/-- Modelled from the spec: the transition tensor of shape `(n, T+1, T)`.
Entry `i, j, k` holds the classifier log-probability of tag `k` at position
`i` given previous tag `j`, with second index `T` denoting the start sentinel;
the entries the decoder never computes (a sentinel previous tag after position
0, a real previous tag at position 0) stay at the zero the array was
initialized with. -/
def transitionTensor (m : TrainedModel) (tokens : List String) :
    List (List (List ℚ)) :=
  (List.range tokens.length).map (fun i =>
    (List.range (m.tags.length + 1)).map (fun j =>
      if (i = 0 ∧ j = m.tags.length) ∨ (i ≠ 0 ∧ j < m.tags.length) then
        distFor m (tokens.getD i "")
          (if j = m.tags.length then "<s>" else tagOf m j)
      else List.replicate m.tags.length 0))

/-- Modelled from the spec: `Classifier.predict_viterbi` returns the
transition tensor, the lattice, and the predicted tag sequence obtained by
mapping the selected tag-index path back to tag strings. -/
def predict_viterbi (m : TrainedModel) (tokens : List String) :
    List (List (List ℚ)) × List (List ℚ) × List String :=
  (transitionTensor m tokens, latticeOf m tokens,
    (viterbiIdxPath m tokens).map (tagOf m))

/-- Cumulative log-probability contributed by the transitions of a tag-index
path: `chainScore m prev ws ks` scores the tokens `ws` tagged `ks` when the
tag before them was `prev`. -/
def chainScore (m : TrainedModel) : Nat → List String → List Nat → ℚ
  | _, [], _ => 0
  | _, _ :: _, [] => 0
  | prev, w :: ws, k :: ks =>
    (distFor m w (tagOf m prev)).getD k 0 + chainScore m k ws ks

/-- Cumulative log-probability of a complete tag-index path for a sentence:
the start-sentinel score of the first tag plus the chained transition
scores. -/
def viterbiPathScore (m : TrainedModel) (tokens : List String) (p : List Nat) : ℚ :=
  match tokens, p with
  | w :: ws, k0 :: ks => (distFor m w "<s>").getD k0 0 + chainScore m k0 ws ks
  | _, _ => 0

/-- The classifier argmax on the feature vector built from one token and one
previous tag: the tag whose class has the first maximal score. -/
def classifier_argmax (m : TrainedModel) (word prevTag : String) : String :=
  m.tags.getD
    (argmaxIdx (m.dist (transform m.featNames
      [("token=" ++ word, 1), ("pos-1=" ++ prevTag, 1)]))) ""

/-- Specification view of the greedy decoder, following the words of spec
section 4.3: a state machine whose single piece of state is the current
previous tag, initialized to the sentinel; at each position it queries the
classifier argmax for the token and the current previous tag, emits the
result, and makes it the new previous tag.  Compared against the transcribed
loop in the refinement theorem for the greedy decoder. -/
def greedySpecMachine (m : TrainedModel) : String → List String → List String
  | _, [] => []
  | prev, w :: ws =>
    classifier_argmax m w prev :: greedySpecMachine m (classifier_argmax m w prev) ws

/-- Small concrete trained model used to instantiate theorems with
hypotheses: five fitted feature columns, two tags, and a score function that
prefers the first tag exactly when the `token=a` column is set. -/
def demoModel : TrainedModel where
  featNames := ["pos-1=<s>", "pos-1=A", "pos-1=B", "token=a", "token=b"]
  tags := ["A", "B"]
  dist := fun r => [if r.getD 3 0 = 1 then 1 else 0, 1]

/-- The apostrophe character, as a string. -/
def apos : String := String.mk [Char.ofNat 39]

/-- The full contract of `predict_viterbi` on one sentence: the transition
tensor has shape `(n, T+1, T)` and holds the classifier log-probabilities on
the region the decoder computes (previous tag sentinel at position 0, every
real previous tag at later positions); the lattice has `n` rows of `T`
columns; and the predicted tags are the selected tag-index path mapped back
to tag strings, whose cumulative log-probability equals the maximum of the
final lattice row and is at least that of every other complete tag-index
path. -/
def ViterbiContract (m : TrainedModel) (tokens : List String) : Prop :=
  (predict_viterbi m tokens).1.length = tokens.length
  ∧ (∀ row ∈ (predict_viterbi m tokens).1,
      row.length = m.tags.length + 1
        ∧ ∀ cell ∈ row, cell.length = m.tags.length)
  ∧ ((predict_viterbi m tokens).1.getD 0 []).getD m.tags.length []
      = distFor m (tokens.getD 0 "") "<s>"
  ∧ (∀ i, 0 < i → i < tokens.length → ∀ j, j < m.tags.length →
      ((predict_viterbi m tokens).1.getD i []).getD j []
        = distFor m (tokens.getD i "") (tagOf m j))
  ∧ (predict_viterbi m tokens).2.1.length = tokens.length
  ∧ (∀ row ∈ (predict_viterbi m tokens).2.1, row.length = m.tags.length)
  ∧ (predict_viterbi m tokens).2.2 = (viterbiIdxPath m tokens).map (tagOf m)
  ∧ (viterbiIdxPath m tokens).length = tokens.length
  ∧ viterbiPathScore m tokens (viterbiIdxPath m tokens)
      = maxVal (lastRowOf m tokens)
  ∧ (∀ p : List Nat, p.length = tokens.length →
      (∀ x ∈ p, x < m.tags.length) →
      viterbiPathScore m tokens p
        ≤ viterbiPathScore m tokens (viterbiIdxPath m tokens))

/-! ### Lemmas about the greedy loop -/

theorem foldl_greedyStepSt_fst (ts : List String) :
    ∀ p : TrainedModel × GreedyState, (ts.foldl greedyStepSt p).1 = p.1 := by
  induction ts with
  | nil => intro p; rfl
  | cons t ts ih => intro p; rw [List.foldl_cons, ih]; rfl

theorem foldl_greedyStepSt_snd (ts : List String) :
    ∀ (m : TrainedModel) (st : GreedyState),
      (ts.foldl greedyStepSt (m, st)).2 = ts.foldl (greedyStep m) st := by
  induction ts with
  | nil => intro m st; rfl
  | cons t ts ih => intro m st; rw [List.foldl_cons, List.foldl_cons]; exact ih m _

theorem foldl_greedyStep_label_list (m : TrainedModel) (ts : List String) :
    ∀ st : GreedyState,
      (ts.foldl (greedyStep m) st).label_list
        = st.label_list ++ greedySpecMachine m st.label ts := by
  induction ts with
  | nil => intro st; simp [greedySpecMachine]
  | cons t ts ih =>
    intro st
    rw [List.foldl_cons, ih]
    simp [greedyStep, greedySpecMachine, classifier_argmax, List.append_assoc]

theorem greedySpecMachine_length (m : TrainedModel) (ts : List String) :
    ∀ prev, (greedySpecMachine m prev ts).length = ts.length := by
  induction ts with
  | nil => intro prev; rfl
  | cons t ts ih => intro prev; simp [greedySpecMachine, ih]

theorem greedySpecMachine_append (m : TrainedModel) (ts rest : List String) :
    ∀ prev, ∃ q, greedySpecMachine m prev (ts ++ rest)
      = greedySpecMachine m prev ts ++ greedySpecMachine m q rest := by
  induction ts with
  | nil => intro prev; exact ⟨prev, rfl⟩
  | cons t ts ih =>
    intro prev
    obtain ⟨q, hq⟩ := ih (classifier_argmax m t prev)
    exact ⟨q, by simp [greedySpecMachine, hq]⟩

theorem predict_greedy_ok (m : TrainedModel) (t : String) (ts : List String) :
    predict_greedy (some m) (t :: ts)
      = Except.ok
          ((((t :: ts).foldl greedyStepSt (m, ⟨"<s>", [], []⟩)).2).feature_list,
            greedySpecMachine m "<s>" (t :: ts)) := by
  show Except.ok _ = Except.ok _
  rw [foldl_greedyStepSt_snd, foldl_greedyStep_label_list]
  rfl

/-! ### Length lemmas for the Viterbi decoder -/

theorem viterbiLoop_length (m : TrainedModel) (ws : List String) :
    ∀ prevRow, (viterbiLoop m prevRow ws).length = ws.length := by
  induction ws with
  | nil => intro prevRow; rfl
  | cons w ws ih => intro prevRow; simp [viterbiLoop, ih]

theorem backtraceRev_length (bs : List (List Nat)) :
    ∀ k, (backtraceRev k bs).length = bs.length + 1 := by
  induction bs with
  | nil => intro k; rfl
  | cons b bs ih => intro k; simp [backtraceRev, ih]

theorem bpsOf_length (m : TrainedModel) (tokens : List String) (hne : tokens ≠ []) :
    (bpsOf m tokens).length + 1 = tokens.length := by
  cases tokens with
  | nil => exact absurd rfl hne
  | cons w ws => simp [bpsOf, viterbiLoop_length]

theorem viterbiIdxPath_length (m : TrainedModel) (tokens : List String) :
    (viterbiIdxPath m tokens).length = tokens.length := by
  cases tokens with
  | nil => rfl
  | cons w ws =>
    simp only [viterbiIdxPath, List.length_reverse, backtraceRev_length]
    exact bpsOf_length m (w :: ws) (by simp)

/-! ### Claim theorems for the decoders -/

/-- C2: for every trained classifier and every input token sequence, the tag
sequence returned by `predict_greedy` has length equal to the number of input
tokens, and likewise the tag sequence returned by `predict_viterbi` (which is
modelled from the spec, its body being absent from the source): no position
is omitted or duplicated. -/
theorem decoders_preserve_length (m : TrainedModel) (tokens : List String) :
    (∀ r, predict_greedy (some m) tokens = Except.ok r →
        r.2.length = tokens.length)
    ∧ ((predict_viterbi m tokens).2.2).length = tokens.length := by
  constructor
  · intro r h
    cases tokens with
    | nil => exact absurd h (by simp [predict_greedy, predict_greedy_st])
    | cons t ts =>
      rw [predict_greedy_ok] at h
      injection h with h'
      subst h'
      exact greedySpecMachine_length m (t :: ts) "<s>"
  · simp [predict_viterbi, viterbiIdxPath_length]

/-- Witness for C2 at a concrete trained model and sentence. -/
theorem decoders_preserve_length_witness :
    (["A", "B"] : List String).length = (["a", "b"] : List String).length :=
  (decoders_preserve_length demoModel ["a", "b"]).1
    ([[1, 0, 0, 1, 0], [0, 1, 0, 0, 1]], ["A", "B"]) rfl

/-- C4: `predict_greedy` behaves as a left-to-right state machine whose single
state variable starts at the sentinel: its output refines the specification
state machine `greedySpecMachine`, and a tag chosen at a position is never
revised by later positions, expressed by the output on a sentence being a
prefix of the output on any extension of that sentence. -/
theorem greedy_is_committed_state_machine (m : TrainedModel)
    (tokens rest : List String) (r r2 : List (List Nat) × List String)
    (h : predict_greedy (some m) tokens = Except.ok r)
    (h2 : predict_greedy (some m) (tokens ++ rest) = Except.ok r2) :
    r.2 = greedySpecMachine m "<s>" tokens ∧ r.2 <+: r2.2 := by
  cases tokens with
  | nil => exact absurd h (by simp [predict_greedy, predict_greedy_st])
  | cons t ts =>
    rw [predict_greedy_ok] at h
    injection h with h'
    rw [List.cons_append, predict_greedy_ok] at h2
    injection h2 with h2'
    subst h' h2'
    refine ⟨rfl, ?_⟩
    obtain ⟨q, hq⟩ := greedySpecMachine_append m (t :: ts) rest "<s>"
    rw [show t :: (ts ++ rest) = (t :: ts) ++ rest from rfl, hq]
    exact List.prefix_append _ _

/-- Witness for C4 at a concrete trained model, sentence and extension. -/
theorem greedy_committed_witness :
    (["A"] : List String) = greedySpecMachine demoModel "<s>" ["a"]
    ∧ (["A"] : List String) <+: ["A", "B"] :=
  greedy_is_committed_state_machine demoModel ["a"] ["b"]
    ([[1, 0, 0, 1, 0]], ["A"])
    ([[1, 0, 0, 1, 0], [0, 1, 0, 0, 1]], ["A", "B"]) rfl rfl

/-- C5 (code evidence): decoding an empty token sequence does not return an
empty tag sequence: the loop body never runs, the feature list stays empty,
and `scipy.sparse.vstack` raises on it, for a trained classifier just as for
an untrained one; `predict` delegates and propagates the error. -/
theorem predict_on_empty_input_raises (c : Classifier) :
    predict_greedy c [] = Except.error "ValueError: vstack on an empty block list"
    ∧ predict c [] = Except.error "ValueError: vstack on an empty block list" :=
  ⟨rfl, rfl⟩

/-- C7: before `train` has been called the fitted attributes do not exist, so
`feature_index`, `label_index`, `predict_greedy` and `predict` all signal an
error on the untrained classifier and never return a value. -/
theorem untrained_model_calls_error :
    (∀ f, feature_index none f = Except.error "untrained model")
    ∧ (∀ l, label_index none l = Except.error "untrained model")
    ∧ (∀ tokens, (predict_greedy none tokens).toOption = none)
    ∧ (∀ tokens, (predict none tokens).toOption = none) := by
  refine ⟨fun f => rfl, fun l => rfl, fun tokens => ?_, fun tokens => ?_⟩ <;>
    cases tokens <;> rfl

/-- C8: decoding is deterministic and does not mutate the trained model: the
classifier state threaded through `predict_greedy_st` comes back unchanged,
and a second call on the state returned by the first call produces the
identical result. -/
theorem greedy_decoding_deterministic_and_pure (c : Classifier)
    (tokens : List String) :
    (predict_greedy_st c tokens).1 = c
    ∧ (predict_greedy_st ((predict_greedy_st c tokens).1) tokens).2
        = (predict_greedy_st c tokens).2 := by
  have h1 : (predict_greedy_st c tokens).1 = c := by
    cases tokens with
    | nil => rfl
    | cons t ts =>
      cases c with
      | none => rfl
      | some m =>
        simp only [predict_greedy_st]
        rw [foldl_greedyStepSt_fst]
  exact ⟨h1, by rw [h1]⟩

/-! ### Lemmas about the training loop -/

theorem token_ne_pos_feature (x y : String) : "token=" ++ x ≠ "pos-1=" ++ y := by
  intro h
  cases x with
  | mk xd =>
    cases y with
    | mk yd =>
      have hd := congrArg String.data h
      have hx : ("token=" ++ String.mk xd).data
          = 't' :: 'o' :: 'k' :: 'e' :: 'n' :: '=' :: xd := rfl
      have hy : ("pos-1=" ++ String.mk yd).data
          = 'p' :: 'o' :: 's' :: '-' :: '1' :: '=' :: yd := rfl
      rw [hx, hy] at hd
      exact absurd (List.head_eq_of_cons_eq hd) (by decide)

theorem featureCount_pair (a b : String) (h : a ≠ b) :
    featureCount [a, b] = [(a, 1), (b, 1)] := by
  have hba' : ¬ b = a := fun hb => h hb.symm
  have hba : (b == a) = false := by
    simp only [beq_eq_false_iff_ne, ne_eq]
    exact hba'
  have hab : (a == b) = false := by
    simp only [beq_eq_false_iff_ne, ne_eq]
    exact h
  simp [featureCount, dictInsert, List.count_cons, List.count_nil, hab, hba, h, hba']

theorem trainStep_whole_doc (st : TrainLoopState) (s : List String × List String) :
    (trainStep st s).whole_doc = st.whole_doc ++ sentRows s := rfl

theorem trainLoop_whole_doc (sents : List (List String × List String)) :
    (trainLoop sents).whole_doc = (sents.map sentRows).flatten := by
  have key : ∀ (l : List (List String × List String)) (st : TrainLoopState),
      (l.foldl trainStep st).whole_doc = st.whole_doc ++ (l.map sentRows).flatten := by
    intro l
    induction l with
    | nil => intro st; simp
    | cons s l ih =>
      intro st
      rw [List.foldl_cons, ih, trainStep_whole_doc]
      simp [List.append_assoc]
  simpa using key sents ⟨[], [], []⟩

theorem trainLoop_label (sents : List (List String × List String)) :
    (trainLoop sents).label = (sents.map (fun s => s.2)).flatten := by
  have key : ∀ (l : List (List String × List String)) (st : TrainLoopState),
      (l.foldl trainStep st).label = st.label ++ (l.map (fun s => s.2)).flatten := by
    intro l
    induction l with
    | nil => intro st; simp
    | cons s l ih =>
      intro st
      rw [List.foldl_cons, ih]
      simp [trainStep, List.append_assoc]
  simpa using key sents ⟨[], [], []⟩

theorem trainLoop_sentsAfter (sents : List (List String × List String)) :
    (trainLoop sents).sentsAfter = sents.map (fun s => (s.1, "<s>" :: s.2)) := by
  have key : ∀ (l : List (List String × List String)) (st : TrainLoopState),
      (l.foldl trainStep st).sentsAfter
        = st.sentsAfter ++ l.map (fun s => (s.1, "<s>" :: s.2)) := by
    intro l
    induction l with
    | nil => intro st; simp
    | cons s l ih =>
      intro st
      rw [List.foldl_cons, ih]
      simp [trainStep, List.append_assoc]
  simpa using key sents ⟨[], [], []⟩

theorem sentRows_length (s : List String × List String) :
    (sentRows s).length = min s.1.length (s.2.length + 1) := by
  simp [sentRows]

theorem sentRows_getD (tok pos : List String) (h : tok.length = pos.length)
    (i : Nat) (hi : i < tok.length) :
    (sentRows (tok, pos)).getD i []
      = [("token=" ++ tok.getD i "", 1),
         ("pos-1=" ++ (if i = 0 then "<s>" else pos.getD (i - 1) ""), 1)] := by
  have hlen : (sentRows (tok, pos)).length = tok.length := by
    rw [sentRows_length, h]
    exact Nat.min_eq_left (Nat.le_succ _)
  have hsr : i < (sentRows (tok, pos)).length := by
    rw [hlen]
    exact hi
  have hi2 : i < (("<s>" :: pos).map (fun x => "pos-1=" ++ x)).length := by
    simp
    omega
  have hip : i < ("<s>" :: pos).length := by
    simp
    omega
  rw [List.getD_eq_getElem _ _ hsr]
  simp only [sentRows]
  rw [List.getElem_map, List.getElem_zip, List.getElem_map, List.getElem_map]
  have hcons : ("<s>" :: pos)[i]
      = if i = 0 then "<s>" else pos.getD (i - 1) "" := by
    cases i with
    | zero => rfl
    | succ j =>
      have hj : j < pos.length := by omega
      simp only [List.getElem_cons_succ, if_neg (Nat.succ_ne_zero j),
        Nat.add_sub_cancel]
      rw [List.getD_eq_getElem _ _ hj]
  rw [hcons, List.getD_eq_getElem _ _ hi]
  exact featureCount_pair _ _ (token_ne_pos_feature _ _)

/-! ### Claim theorems for training -/

/-- C3: for every tagged training sentence the `train` loop builds one feature
dict per token, holding exactly the feature `token=` plus the token with count
1 and the feature `pos-1=` plus the previous gold tag (the sentinel for the
first token) with count 1; the full document of training rows is the
concatenation of the per-sentence rows. -/
theorem train_builds_token_and_prevtag_features
    (sents : List (List String × List String)) (tok pos : List String)
    (h : tok.length = pos.length) :
    (trainLoop sents).whole_doc = (sents.map sentRows).flatten
    ∧ (sentRows (tok, pos)).length = tok.length
    ∧ ∀ i, i < tok.length →
        (sentRows (tok, pos)).getD i []
          = [("token=" ++ tok.getD i "", 1),
             ("pos-1=" ++ (if i = 0 then "<s>" else pos.getD (i - 1) ""), 1)] := by
  refine ⟨trainLoop_whole_doc sents, ?_, fun i hi => sentRows_getD tok pos h i hi⟩
  rw [sentRows_length, h]
  exact Nat.min_eq_left (Nat.le_succ _)

/-- Witness for C3 at the example sentence from the spec: the first training
row holds `token=What` and `pos-1=<s>`, the second `token='s` and
`pos-1=WP`. -/
theorem train_features_witness :
    (sentRows (["What", apos ++ "s", "next", "?"], ["WP", "VBZ", "JJ", "."])).getD 0 []
        = [("token=What", 1), ("pos-1=<s>", 1)]
    ∧ (sentRows (["What", apos ++ "s", "next", "?"], ["WP", "VBZ", "JJ", "."])).getD 1 []
        = [("token=" ++ (apos ++ "s"), 1), ("pos-1=WP", 1)] := by
  have h := train_builds_token_and_prevtag_features
    [(["What", apos ++ "s", "next", "?"], ["WP", "VBZ", "JJ", "."])]
    ["What", apos ++ "s", "next", "?"] ["WP", "VBZ", "JJ", "."] rfl
  refine ⟨?_, ?_⟩
  · rw [h.2.2 0 (by decide)]
    rfl
  · rw [h.2.2 1 (by decide)]
    rfl

/-- C6 counterexample: a training input containing a sentence with two tokens
but one tag, alongside a second sentence with one token but two tags, trains
without any error: the zip silently truncates each sentence, the row and
label totals happen to agree, and the model is fit on the corrupted data. -/
theorem train_mismatch_counterexample :
    (["a", "b"] : List String).length ≠ (["X"] : List String).length
    ∧ (train [(["a", "b"], ["X"]), (["c"], ["Y", "Z"])]).toOption
        = some ([[("token=a", 1), ("pos-1=<s>", 1)],
                 [("token=b", 1), ("pos-1=X", 1)],
                 [("token=c", 1), ("pos-1=<s>", 1)]],
                ["X", "Y", "Z"],
                [(["a", "b"], ["<s>", "X"]), (["c"], ["<s>", "Y", "Z"])]) :=
  ⟨by decide, rfl⟩

/-- C6 (amended): `train` has no per-example length validation; a mismatched
sentence is silently truncated by the zip, and an error surfaces only at the
final fitting step, and only when the total number of feature rows differs
from the total number of labels — which does hold whenever exactly one
sentence is mismatched and all others are well-formed. -/
theorem train_single_mismatch_errors (pre suf : List (List String × List String))
    (tok pos : List String)
    (hpre : ∀ s ∈ pre, s.1.length = s.2.length)
    (hsuf : ∀ s ∈ suf, s.1.length = s.2.length)
    (hne : tok.length ≠ pos.length) :
    (train (pre ++ (tok, pos) :: suf)).toOption = none := by
  have hw : (trainLoop (pre ++ (tok, pos) :: suf)).whole_doc.length
      = ((pre ++ (tok, pos) :: suf).map
          (fun s => min s.1.length (s.2.length + 1))).sum := by
    rw [trainLoop_whole_doc, List.length_flatten, List.map_map]
    congr 1
    exact List.map_congr_left fun s _ => sentRows_length s
  have hl : (trainLoop (pre ++ (tok, pos) :: suf)).label.length
      = ((pre ++ (tok, pos) :: suf).map (fun s => s.2.length)).sum := by
    rw [trainLoop_label, List.length_flatten, List.map_map]
    rfl
  have hprew : (pre.map (fun s => min s.1.length (s.2.length + 1))).sum
      = (pre.map (fun s => s.2.length)).sum := by
    congr 1
    exact List.map_congr_left fun s hs => by
      rw [hpre s hs]
      exact Nat.min_eq_left (Nat.le_succ _)
  have hsufw : (suf.map (fun s => min s.1.length (s.2.length + 1))).sum
      = (suf.map (fun s => s.2.length)).sum := by
    congr 1
    exact List.map_congr_left fun s hs => by
      rw [hsuf s hs]
      exact Nat.min_eq_left (Nat.le_succ _)
  have hcount : (trainLoop (pre ++ (tok, pos) :: suf)).whole_doc.length
      ≠ (trainLoop (pre ++ (tok, pos) :: suf)).label.length := by
    rw [hw, hl]
    simp only [List.map_append, List.sum_append, List.map_cons, List.sum_cons]
    rw [hprew, hsufw]
    omega
  simp only [train]
  by_cases he : (trainLoop (pre ++ (tok, pos) :: suf)).whole_doc.isEmpty
  · simp [he, Except.toOption]
  · simp [he, hcount, Except.toOption]

/-- Witness for the amended C6 at a concrete mismatched sentence. -/
theorem train_single_mismatch_witness :
    (train [(["a", "b"], ["X"])]).toOption = none :=
  train_single_mismatch_errors [] [] ["a", "b"] ["X"]
    (by simp) (by simp) (by decide)

/-- C9: `train` mutates each caller-owned tag list in place by inserting the
sentinel at index 0, so after training every tag list is one element longer
than before and starts with the sentinel, while the token lists are left
unchanged. -/
theorem train_inserts_sentinel_into_caller_tag_lists
    (sents : List (List String × List String)) :
    (trainLoop sents).sentsAfter.length = sents.length
    ∧ ∀ i, i < sents.length →
        ((trainLoop sents).sentsAfter.getD i ([], [])).1
            = (sents.getD i ([], [])).1
        ∧ ((trainLoop sents).sentsAfter.getD i ([], [])).2
            = "<s>" :: (sents.getD i ([], [])).2
        ∧ ((trainLoop sents).sentsAfter.getD i ([], [])).2.length
            = (sents.getD i ([], [])).2.length + 1 := by
  rw [trainLoop_sentsAfter]
  refine ⟨by simp, fun i hi => ?_⟩
  have him : i < (sents.map (fun s => (s.1, "<s>" :: s.2))).length := by
    simpa using hi
  rw [List.getD_eq_getElem _ _ him, List.getD_eq_getElem _ _ hi,
    List.getElem_map]
  exact ⟨rfl, rfl, by simp⟩

/-- Witness for C9 at a concrete one-sentence training input. -/
theorem train_mutation_witness :
    ((trainLoop [(["What"], ["WP"])]).sentsAfter.getD 0 ([], [])).2
      = "<s>" :: ["WP"] :=
  ((train_inserts_sentinel_into_caller_tag_lists [(["What"], ["WP"])]).2 0
    (by decide)).2.1

/-! ### Lemmas and claim theorem for the corpus reader -/

theorem readLoop_append_blank (ls : List String) :
    ∀ buf acc res, readLoop buf acc ls = Except.ok res →
      readLoop buf acc (ls ++ [""]) = Except.ok (res ++ [([], [])]) := by
  induction ls with
  | nil =>
    intro buf acc res h
    injection h with h'
    subst h'
    show readLoop buf acc [""] = _
    rw [show readLoop buf acc [""]
        = readLoop ([], []) (acc ++ [buf]) [] from rfl]
    simp [readLoop]
  | cons l ls ih =>
    intro buf acc res h
    by_cases hs : pyStrip l = ""
    · rw [List.cons_append]
      rw [show readLoop buf acc (l :: (ls ++ [""]))
          = if pyStrip l = "" then readLoop ([], []) (acc ++ [buf]) (ls ++ [""])
            else match (pySplitTab (pyStrip l)).get? 1 with
              | none => Except.error "IndexError: list index out of range"
              | some p => readLoop (buf.1 ++ [(pySplitTab (pyStrip l)).headD ""],
                  buf.2 ++ [p]) acc (ls ++ [""]) from rfl,
        if_pos hs]
      rw [show readLoop buf acc (l :: ls)
          = if pyStrip l = "" then readLoop ([], []) (acc ++ [buf]) ls
            else match (pySplitTab (pyStrip l)).get? 1 with
              | none => Except.error "IndexError: list index out of range"
              | some p => readLoop (buf.1 ++ [(pySplitTab (pyStrip l)).headD ""],
                  buf.2 ++ [p]) acc ls from rfl,
        if_pos hs] at h
      exact ih _ _ _ h
    · rw [List.cons_append]
      rw [show readLoop buf acc (l :: (ls ++ [""]))
          = if pyStrip l = "" then readLoop ([], []) (acc ++ [buf]) (ls ++ [""])
            else match (pySplitTab (pyStrip l)).get? 1 with
              | none => Except.error "IndexError: list index out of range"
              | some p => readLoop (buf.1 ++ [(pySplitTab (pyStrip l)).headD ""],
                  buf.2 ++ [p]) acc (ls ++ [""]) from rfl,
        if_neg hs]
      rw [show readLoop buf acc (l :: ls)
          = if pyStrip l = "" then readLoop ([], []) (acc ++ [buf]) ls
            else match (pySplitTab (pyStrip l)).get? 1 with
              | none => Except.error "IndexError: list index out of range"
              | some p => readLoop (buf.1 ++ [(pySplitTab (pyStrip l)).headD ""],
                  buf.2 ++ [p]) acc ls from rfl,
        if_neg hs] at h
      cases hp : (pySplitTab (pyStrip l)).get? 1 with
      | none =>
        rw [hp] at h
        exact absurd h (by simp)
      | some p =>
        rw [hp] at h
        exact ih _ _ _ h

theorem readLoop_count (ls : List String) :
    ∀ buf acc res, readLoop buf acc ls = Except.ok res →
      res.length = acc.length + ls.countP (fun l => pyStrip l == "") + 1 := by
  induction ls with
  | nil =>
    intro buf acc res h
    injection h with h'
    subst h'
    simp
  | cons l ls ih =>
    intro buf acc res h
    by_cases hs : pyStrip l = ""
    · rw [show readLoop buf acc (l :: ls)
          = if pyStrip l = "" then readLoop ([], []) (acc ++ [buf]) ls
            else match (pySplitTab (pyStrip l)).get? 1 with
              | none => Except.error "IndexError: list index out of range"
              | some p => readLoop (buf.1 ++ [(pySplitTab (pyStrip l)).headD ""],
                  buf.2 ++ [p]) acc ls from rfl,
        if_pos hs] at h
      have h2 := ih _ _ _ h
      rw [List.countP_cons]
      have hs' : (pyStrip l == "") = true := by simp [hs]
      rw [hs']
      simp at h2 ⊢
      omega
    · rw [show readLoop buf acc (l :: ls)
          = if pyStrip l = "" then readLoop ([], []) (acc ++ [buf]) ls
            else match (pySplitTab (pyStrip l)).get? 1 with
              | none => Except.error "IndexError: list index out of range"
              | some p => readLoop (buf.1 ++ [(pySplitTab (pyStrip l)).headD ""],
                  buf.2 ++ [p]) acc ls from rfl,
        if_neg hs] at h
      cases hp : (pySplitTab (pyStrip l)).get? 1 with
      | none =>
        rw [hp] at h
        exact absurd h (by simp)
      | some p =>
        rw [hp] at h
        have h2 := ih _ _ _ h
        rw [List.countP_cons]
        have hs' : (pyStrip l == "") = false := by
          simp only [beq_eq_false_iff_ne, ne_eq]
          exact hs
        rw [hs']
        simp at h2 ⊢
        omega

/-- C10: the accumulated buffers are yielded unconditionally after the line
loop: the empty file yields exactly one empty sentence, appending a blank
line to a file that reads successfully appends exactly one extra empty
sentence, and in general the number of yielded sentences is the number of
blank lines plus one — so a file that does not end with a blank line yields
its final buffered sentence exactly once. -/
theorem read_ptbtagged_unconditional_final_yield :
    read_ptbtagged [] = Except.ok [([], [])]
    ∧ (∀ ls res, read_ptbtagged ls = Except.ok res →
        read_ptbtagged (ls ++ [""]) = Except.ok (res ++ [([], [])]))
    ∧ (∀ ls res, read_ptbtagged ls = Except.ok res →
        res.length = ls.countP (fun l => pyStrip l == "") + 1) :=
  ⟨rfl,
    fun ls res h => readLoop_append_blank ls ([], []) [] res h,
    fun ls res h => by simpa using readLoop_count ls ([], []) [] res h⟩

/-- Witness for C10 at a concrete two-line file ending without a blank line,
then extended with one blank line. -/
theorem read_final_yield_witness :
    read_ptbtagged (["What\tWP"] ++ [""])
      = Except.ok ([(["What"], ["WP"])] ++ [([], [])]) :=
  read_ptbtagged_unconditional_final_yield.2.1 ["What\tWP"] [(["What"], ["WP"])] rfl

/-! ### Lemmas about the argmax and the Viterbi recurrence -/

theorem argmaxIdx_lt_length : ∀ l : List ℚ, l ≠ [] → argmaxIdx l < l.length := by
  intro l
  induction l with
  | nil => intro h; exact absurd rfl h
  | cons x xs ih =>
    intro _
    cases xs with
    | nil => simp [argmaxIdx]
    | cons y rest =>
      show argmaxIdx (x :: y :: rest) < (y :: rest).length + 1
      rw [show argmaxIdx (x :: y :: rest)
          = if x < (y :: rest).getD (argmaxIdx (y :: rest)) 0
            then argmaxIdx (y :: rest) + 1 else 0 from rfl]
      by_cases hx : x < (y :: rest).getD (argmaxIdx (y :: rest)) 0
      · rw [if_pos hx]
        have := ih (by simp)
        omega
      · rw [if_neg hx]
        omega

theorem maxVal_cons_cons (x y : ℚ) (rest : List ℚ) :
    maxVal (x :: y :: rest)
      = if x < maxVal (y :: rest) then maxVal (y :: rest) else x := by
  show (x :: y :: rest).getD (argmaxIdx (x :: y :: rest)) 0 = _
  rw [show argmaxIdx (x :: y :: rest)
      = if x < maxVal (y :: rest) then argmaxIdx (y :: rest) + 1 else 0 from rfl]
  by_cases hx : x < maxVal (y :: rest)
  · rw [if_pos hx, if_pos hx, List.getD_cons_succ]
    rfl
  · rw [if_neg hx, if_neg hx, List.getD_cons_zero]

theorem getD_le_maxVal : ∀ (l : List ℚ) (i : Nat), i < l.length →
    l.getD i 0 ≤ maxVal l := by
  intro l
  induction l with
  | nil => intro i hi; simp at hi
  | cons x xs ih =>
    intro i hi
    cases xs with
    | nil =>
      have h0 : i = 0 := by
        simp at hi
        omega
      subst h0
      simp [maxVal, argmaxIdx]
    | cons y rest =>
      rw [maxVal_cons_cons]
      cases i with
      | zero =>
        rw [List.getD_cons_zero]
        by_cases hx : x < maxVal (y :: rest)
        · rw [if_pos hx]
          exact le_of_lt hx
        · rw [if_neg hx]
      | succ j =>
        rw [List.getD_cons_succ]
        have hj : (y :: rest).getD j 0 ≤ maxVal (y :: rest) :=
          ih j (by simpa using hi)
        by_cases hx : x < maxVal (y :: rest)
        · rw [if_pos hx]
          exact hj
        · rw [if_neg hx]
          exact le_trans hj (le_of_not_lt hx)

theorem cand_length (m : TrainedModel) (prevRow : List ℚ) (w : String) (k : Nat) :
    (cand m prevRow w k).length = m.tags.length := by
  simp [cand]

theorem cand_getD (m : TrainedModel) (prevRow : List ℚ) (w : String) (k j : Nat)
    (hj : j < m.tags.length) :
    (cand m prevRow w k).getD j 0
      = prevRow.getD j 0 + (distFor m w (tagOf m j)).getD k 0 := by
  rw [List.getD_eq_getElem _ _ (by simpa [cand] using hj)]
  simp [cand]

theorem stepRow_length (m : TrainedModel) (prevRow : List ℚ) (w : String) :
    (stepRow m prevRow w).length = m.tags.length := by
  simp [stepRow]

theorem stepRow_getD (m : TrainedModel) (prevRow : List ℚ) (w : String) (k : Nat)
    (hk : k < m.tags.length) :
    (stepRow m prevRow w).getD k 0 = maxVal (cand m prevRow w k) := by
  rw [List.getD_eq_getElem _ _ (by simpa [stepRow] using hk)]
  simp [stepRow]

theorem stepBp_getD (m : TrainedModel) (prevRow : List ℚ) (w : String) (k : Nat)
    (hk : k < m.tags.length) :
    (stepBp m prevRow w).getD k 0 = argmaxIdx (cand m prevRow w k) := by
  rw [List.getD_eq_getElem _ _ (by simpa [stepBp] using hk)]
  simp [stepBp]

theorem finalRowAux_length (m : TrainedModel) (ws : List String) :
    ∀ prevRow : List ℚ, prevRow.length = m.tags.length →
      (finalRowAux m prevRow ws).length = m.tags.length := by
  induction ws with
  | nil => intro prevRow h; exact h
  | cons w ws ih => intro prevRow _; exact ih _ (stepRow_length m prevRow w)

theorem viterbiLoop_rows_last (m : TrainedModel) (ws : List String) :
    ∀ r0 : List ℚ,
      ((viterbiLoop m r0 ws).map (fun r => r.1)).getLastD r0
        = finalRowAux m r0 ws := by
  induction ws with
  | nil => intro r0; rfl
  | cons w ws ih =>
    intro r0
    show (((stepRow m r0 w, stepBp m r0 w) ::
        viterbiLoop m (stepRow m r0 w) ws).map (fun r => r.1)).getLastD r0
      = finalRowAux m (stepRow m r0 w) ws
    rw [List.map_cons, List.getLastD_cons]
    exact ih (stepRow m r0 w)

theorem lastRowOf_eq_finalRowAux (m : TrainedModel) (w : String) (ws : List String) :
    lastRowOf m (w :: ws) = finalRowAux m (distFor m w "<s>") ws := by
  show (distFor m w "<s>" ::
      (viterbiLoop m (distFor m w "<s>") ws).map (fun r => r.1)).getLastD []
    = _
  rw [List.getLastD_cons]
  exact viterbiLoop_rows_last m ws (distFor m w "<s>")

theorem backtraceRev_getLastD (bs : List (List Nat)) :
    ∀ k d1 d2, (backtraceRev k bs).getLastD d1 = (backtraceRev k bs).getLastD d2 := by
  induction bs with
  | nil => intro k d1 d2; rfl
  | cons b bs ih =>
    intro k d1 d2
    show (k :: backtraceRev (b.getD k 0) bs).getLastD d1
      = (k :: backtraceRev (b.getD k 0) bs).getLastD d2
    rw [List.getLastD_cons, List.getLastD_cons]

theorem backtraceRev_append (b : List Nat) :
    ∀ (l : List (List Nat)) (k : Nat),
      backtraceRev k (l ++ [b])
        = backtraceRev k l ++ [b.getD ((backtraceRev k l).getLastD 0) 0] := by
  intro l
  induction l with
  | nil => intro k; rfl
  | cons b' l ih =>
    intro k
    show k :: backtraceRev (b'.getD k 0) (l ++ [b])
      = (k :: backtraceRev (b'.getD k 0) l)
          ++ [b.getD ((k :: backtraceRev (b'.getD k 0) l).getLastD 0) 0]
    rw [ih, List.getLastD_cons,
      backtraceRev_getLastD l (b'.getD k 0) k 0, List.cons_append]

/-- Upper-bound half of the Viterbi invariant: the cumulative score of any
tag-index chain is bounded by the final lattice row entry of the tag the
chain ends at. -/
theorem chain_le_finalRow (m : TrainedModel) (ws : List String) :
    ∀ (prevRow : List ℚ) (j0 : Nat) (ks : List Nat),
      j0 < m.tags.length → ks.length = ws.length →
      (∀ x ∈ ks, x < m.tags.length) →
      prevRow.getD j0 0 + chainScore m j0 ws ks
        ≤ (finalRowAux m prevRow ws).getD (ks.getLastD j0) 0 := by
  induction ws with
  | nil =>
    intro prevRow j0 ks _ hlen _
    have hks : ks = [] := List.eq_nil_of_length_eq_zero hlen
    subst hks
    simp [chainScore, finalRowAux]
  | cons w ws ih =>
    intro prevRow j0 ks hj0 hlen hks
    cases ks with
    | nil => simp at hlen
    | cons k1 ks' =>
      have hk1 : k1 < m.tags.length := hks k1 (by simp)
      have step1 : prevRow.getD j0 0 + (distFor m w (tagOf m j0)).getD k1 0
          ≤ (stepRow m prevRow w).getD k1 0 := by
        rw [stepRow_getD m prevRow w k1 hk1, ← cand_getD m prevRow w k1 j0 hj0]
        exact getD_le_maxVal _ j0 (by rw [cand_length]; exact hj0)
      have hchain : chainScore m j0 (w :: ws) (k1 :: ks')
          = (distFor m w (tagOf m j0)).getD k1 0 + chainScore m k1 ws ks' := rfl
      have hrec := ih (stepRow m prevRow w) k1 ks' hk1
        (by simpa using hlen) (fun x hx => hks x (List.mem_cons_of_mem _ hx))
      calc prevRow.getD j0 0 + chainScore m j0 (w :: ws) (k1 :: ks')
          = (prevRow.getD j0 0 + (distFor m w (tagOf m j0)).getD k1 0)
              + chainScore m k1 ws ks' := by rw [hchain]; ring
        _ ≤ (stepRow m prevRow w).getD k1 0 + chainScore m k1 ws ks' :=
              add_le_add_right step1 _
        _ ≤ (finalRowAux m (stepRow m prevRow w) ws).getD (ks'.getLastD k1) 0 :=
              hrec
        _ = (finalRowAux m prevRow (w :: ws)).getD ((k1 :: ks').getLastD j0) 0 := by
              rw [List.getLastD_cons]
              rfl

/-- Achievability half of the Viterbi invariant: following the backpointers
from any final tag yields a tag-index chain whose cumulative score equals
that tag's entry in the final lattice row. -/
theorem backtrace_achieves (m : TrainedModel) (hT : 0 < m.tags.length)
    (ws : List String) :
    ∀ (prevRow : List ℚ) (k : Nat), k < m.tags.length →
      ∃ j0 ks,
        (backtraceRev k
            (((viterbiLoop m prevRow ws).map (fun r => r.2)).reverse)).reverse
          = j0 :: ks
        ∧ j0 < m.tags.length
        ∧ (∀ x ∈ ks, x < m.tags.length)
        ∧ ks.length = ws.length
        ∧ ks.getLastD j0 = k
        ∧ prevRow.getD j0 0 + chainScore m j0 ws ks
            = (finalRowAux m prevRow ws).getD k 0 := by
  induction ws with
  | nil =>
    intro prevRow k hk
    refine ⟨k, [], rfl, hk, by simp, rfl, rfl, ?_⟩
    simp [chainScore, finalRowAux]
  | cons w ws ih =>
    intro prevRow k hk
    obtain ⟨j0', ks', hrev, hj0', hks', hlen', hlast', hscore'⟩ :=
      ih (stepRow m prevRow w) k hk
    have hmap : (viterbiLoop m prevRow (w :: ws)).map (fun r => r.2)
        = stepBp m prevRow w ::
            (viterbiLoop m (stepRow m prevRow w) ws).map (fun r => r.2) := rfl
    have hlastrev :
        (backtraceRev k
            (((viterbiLoop m (stepRow m prevRow w) ws).map
              (fun r => r.2)).reverse)).getLastD 0 = j0' := by
      have hb : backtraceRev k
          (((viterbiLoop m (stepRow m prevRow w) ws).map
            (fun r => r.2)).reverse)
          = (j0' :: ks').reverse := by
        have := congrArg List.reverse hrev
        simpa using this
      rw [hb, List.reverse_cons]
      exact List.getLastD_concat _ _ _
    set jnew := (stepBp m prevRow w).getD j0' 0 with hjnew
    have hjnewa : jnew = argmaxIdx (cand m prevRow w j0') := by
      rw [hjnew, stepBp_getD m prevRow w j0' hj0']
    have hjnewlt : jnew < m.tags.length := by
      rw [hjnewa]
      have hlt := argmaxIdx_lt_length (cand m prevRow w j0')
        (List.ne_nil_of_length_pos (by rw [cand_length]; exact hT))
      rwa [cand_length] at hlt
    refine ⟨jnew, j0' :: ks', ?_, hjnewlt, ?_, by simpa using hlen', ?_, ?_⟩
    · rw [hmap, List.reverse_cons, backtraceRev_append, hlastrev]
      rw [List.reverse_append]
      simp only [List.reverse_cons, List.reverse_nil, List.nil_append,
        List.singleton_append]
      rw [hrev]
    · intro x hx
      rcases List.mem_cons.mp hx with h1 | h2
      · rw [h1]; exact hj0'
      · exact hks' x h2
    · rw [List.getLastD_cons]
      exact hlast'
    · have hchain : chainScore m jnew (w :: ws) (j0' :: ks')
          = (distFor m w (tagOf m jnew)).getD j0' 0 + chainScore m j0' ws ks' := rfl
      have hcand : prevRow.getD jnew 0 + (distFor m w (tagOf m jnew)).getD j0' 0
          = (cand m prevRow w j0').getD jnew 0 :=
        (cand_getD m prevRow w j0' jnew hjnewlt).symm
      have hmaxv : (cand m prevRow w j0').getD jnew 0
          = maxVal (cand m prevRow w j0') := by
        rw [hjnewa]
        rfl
      calc prevRow.getD jnew 0 + chainScore m jnew (w :: ws) (j0' :: ks')
          = (prevRow.getD jnew 0 + (distFor m w (tagOf m jnew)).getD j0' 0)
              + chainScore m j0' ws ks' := by rw [hchain]; ring
        _ = maxVal (cand m prevRow w j0') + chainScore m j0' ws ks' := by
              rw [hcand, hmaxv]
        _ = (stepRow m prevRow w).getD j0' 0 + chainScore m j0' ws ks' := by
              rw [stepRow_getD m prevRow w j0' hj0']
        _ = (finalRowAux m (stepRow m prevRow w) ws).getD k 0 := hscore'
        _ = (finalRowAux m prevRow (w :: ws)).getD k 0 := rfl

/-! ### Shape lemmas for the transition tensor and the lattice -/

theorem transitionTensor_getD (m : TrainedModel) (tokens : List String)
    (i j : Nat) (hi : i < tokens.length) (hj : j < m.tags.length + 1) :
    ((transitionTensor m tokens).getD i []).getD j []
      = if (i = 0 ∧ j = m.tags.length) ∨ (i ≠ 0 ∧ j < m.tags.length) then
          distFor m (tokens.getD i "")
            (if j = m.tags.length then "<s>" else tagOf m j)
        else List.replicate m.tags.length 0 := by
  simp only [transitionTensor, List.getD_eq_getElem?_getD, List.getElem?_map,
    List.getElem?_range, hi, hj, if_pos, Option.map_some, Option.getD_some]
  simp [hi, hj]

theorem viterbiLoop_row_length (m : TrainedModel) (ws : List String) :
    ∀ (prevRow : List ℚ) (row : List ℚ),
      row ∈ (viterbiLoop m prevRow ws).map (fun r => r.1) →
      row.length = m.tags.length := by
  induction ws with
  | nil => intro prevRow row h; simp [viterbiLoop] at h
  | cons w ws ih =>
    intro prevRow row h
    rw [show viterbiLoop m prevRow (w :: ws)
        = (stepRow m prevRow w, stepBp m prevRow w) ::
            viterbiLoop m (stepRow m prevRow w) ws from rfl,
      List.map_cons] at h
    rcases List.mem_cons.mp h with h1 | h2
    · rw [h1]
      exact stepRow_length m prevRow w
    · exact ih _ row h2

theorem latticeOf_length (m : TrainedModel) (tokens : List String) :
    (latticeOf m tokens).length = tokens.length := by
  cases tokens with
  | nil => rfl
  | cons w ws => simp [latticeOf, viterbiLoop_length]

/-! ### Claim theorem for the Viterbi decoder -/

/-- C1 (modelled from the spec, the body of `predict_viterbi` being absent
from the source): for every well-formed trained classifier with at least one
tag and every non-empty sentence, `predict_viterbi` returns the
`(n, T+1, T)` transition tensor of classifier log-probabilities (second
index `T` denoting the start sentinel), a Viterbi lattice with `n` rows and
`T` columns, and the predicted tag sequence of the highest-probability path
through the lattice. -/
theorem viterbi_returns_tensor_lattice_and_best_path (m : TrainedModel)
    (hWF : m.WF) (hT : 0 < m.tags.length) (tokens : List String)
    (hne : tokens ≠ []) : ViterbiContract m tokens := by
  obtain ⟨w, ws, rfl⟩ : ∃ w ws, tokens = w :: ws := by
    cases tokens with
    | nil => exact absurd rfl hne
    | cons w ws => exact ⟨w, ws, rfl⟩
  have hlastlen : (lastRowOf m (w :: ws)).length = m.tags.length := by
    rw [lastRowOf_eq_finalRowAux]
    exact finalRowAux_length m ws _ (hWF _)
  have hkb : argmaxIdx (lastRowOf m (w :: ws)) < m.tags.length := by
    have hlt := argmaxIdx_lt_length (lastRowOf m (w :: ws))
      (List.ne_nil_of_length_pos (by rw [hlastlen]; exact hT))
    rwa [hlastlen] at hlt
  obtain ⟨j0, ks, hpath, hj0, hks, hlen, _, hscore⟩ :=
    backtrace_achieves m hT ws (distFor m w "<s>")
      (argmaxIdx (lastRowOf m (w :: ws))) hkb
  have hip : viterbiIdxPath m (w :: ws) = j0 :: ks := hpath
  have hscoreq : viterbiPathScore m (w :: ws) (viterbiIdxPath m (w :: ws))
      = maxVal (lastRowOf m (w :: ws)) := by
    rw [hip]
    show (distFor m w "<s>").getD j0 0 + chainScore m j0 ws ks = _
    rw [hscore, maxVal, lastRowOf_eq_finalRowAux]
  refine ⟨?_, ?_, ?_, ?_, ?_, ?_, rfl, viterbiIdxPath_length m _, hscoreq, ?_⟩
  · simp [predict_viterbi, transitionTensor]
  · intro row hrow
    simp only [predict_viterbi, transitionTensor] at hrow
    obtain ⟨i, _, rfl⟩ := List.mem_map.mp hrow
    refine ⟨by simp, ?_⟩
    intro cell hcell
    obtain ⟨j, _, rfl⟩ := List.mem_map.mp hcell
    split
    · exact hWF _
    · simp
  · have h0 : (0 : Nat) < (w :: ws).length := by simp
    rw [show (predict_viterbi m (w :: ws)).1 = transitionTensor m (w :: ws) from rfl,
      transitionTensor_getD m (w :: ws) 0 m.tags.length h0 (Nat.lt_succ_self _)]
    simp
  · intro i hipos hilen j hj
    rw [show (predict_viterbi m (w :: ws)).1 = transitionTensor m (w :: ws) from rfl,
      transitionTensor_getD m (w :: ws) i j hilen (by omega)]
    have hine : i ≠ 0 := by omega
    have hjne : j ≠ m.tags.length := by omega
    simp [hine, hjne, hj]
  · exact latticeOf_length m (w :: ws)
  · intro row hrow
    simp only [predict_viterbi] at hrow
    rw [show latticeOf m (w :: ws)
        = distFor m w "<s>" ::
            (viterbiLoop m (distFor m w "<s>") ws).map (fun r => r.1) from rfl] at hrow
    rcases List.mem_cons.mp hrow with h1 | h2
    · rw [h1]
      exact hWF _
    · exact viterbiLoop_row_length m ws _ row h2
  · intro p hplen hpbounds
    cases p with
    | nil => simp at hplen
    | cons k0 ks2 =>
      have hk0 : k0 < m.tags.length := hpbounds k0 (by simp)
      have hks2 : ∀ x ∈ ks2, x < m.tags.length :=
        fun x hx => hpbounds x (List.mem_cons_of_mem _ hx)
      have hlen2 : ks2.length = ws.length := by simpa using hplen
      have hup := chain_le_finalRow m ws (distFor m w "<s>") k0 ks2 hk0 hlen2 hks2
      have hlastmem : ks2.getLastD k0 < m.tags.length := by
        have hmem := List.getLastD_mem_cons ks2 k0
        rcases List.mem_cons.mp hmem with h1 | h2
        · rw [h1]; exact hk0
        · exact hks2 _ h2
      have hdlen : (distFor m w "<s>").length = m.tags.length := hWF _
      have hle2 : (finalRowAux m (distFor m w "<s>") ws).getD (ks2.getLastD k0) 0
          ≤ maxVal (finalRowAux m (distFor m w "<s>") ws) := by
        refine getD_le_maxVal _ _ ?_
        rw [finalRowAux_length m ws _ hdlen]
        exact hlastmem
      rw [hscoreq, lastRowOf_eq_finalRowAux]
      show (distFor m w "<s>").getD k0 0 + chainScore m k0 ws ks2
        ≤ maxVal (finalRowAux m (distFor m w "<s>") ws)
      exact le_trans hup hle2

/-- Witness for C1 at a concrete well-formed trained model and a concrete
two-token sentence. -/
theorem viterbi_contract_witness : ViterbiContract demoModel ["a", "b"] :=
  viterbi_returns_tensor_lattice_and_best_path demoModel (fun _ => rfl)
    (by decide) ["a", "b"] (by decide)

end Memm
